import Mathlib

/-!
Verification of the exam-supervision assignment engine of this repository:
a shallow embedding of the functions of src/logic.py and
src/app_with_sections.py, together with theorems settling the specification
claims about them.

Modelling conventions:
* Python strings are `List Char`; `str.strip` is `stripChars`, `str.lower`
  is `lowerChars`, the substring operator `in` is `hasSub`.
* Dates are day numbers (`Nat`); `str(exam_date)` is `dateStr`, a nonempty
  string of decimal digit characters.
* Times of day are minutes (`Nat`); an unparsable time (`parse_time`
  returning `None`) is `none : Option Nat`.
* `pandas` tables are lists of records; Python's stable sorts
  (`list.sort`, the stable multi-key `DataFrame.sort_values`) are the
  stable insertion sort `sortByLE`.
-/

/-! ## Character-string utilities -/

/-- Whitespace characters removed by Python `str.strip` with no arguments
(space, tab, newline, carriage return, vertical tab, form feed). -/
def wsChar (c : Char) : Bool :=
  c == ' ' || c == '\t' || c == '\n' || c == '\r' || c.toNat == 11 || c.toNat == 12

/-- Remove trailing whitespace. -/
def dropTrail (l : List Char) : List Char :=
  (l.reverse.dropWhile wsChar).reverse

/-- Python `str.strip`: remove leading and trailing whitespace. -/
def stripChars (l : List Char) : List Char :=
  dropTrail (l.dropWhile wsChar)

/-- Python `str.lower` (ASCII case folding). -/
def lowerChars (l : List Char) : List Char := l.map Char.toLower

/-- `leadsWith needle hay`: needle is a leading segment of hay. -/
def leadsWith : List Char → List Char → Bool
  | [], _ => true
  | _ :: _, [] => false
  | a :: as, b :: bs => a == b && leadsWith as bs

/-- Python substring containment: `hasSub needle hay` is `needle in hay`. -/
def hasSub (needle : List Char) : List Char → Bool
  | [] => needle.isEmpty
  | c :: rest => leadsWith needle (c :: rest) || hasSub needle rest

/-- Strict lexicographic comparison of Python strings
(character by character by code point, a proper leading segment is smaller). -/
def charListLT : List Char → List Char → Bool
  | [], [] => false
  | [], _ :: _ => true
  | _ :: _, [] => false
  | a :: as, b :: bs => decide (a < b) || (a == b && charListLT as bs)

/-- Lexicographic at-most comparison of Python strings. -/
def charListLE : List Char → List Char → Bool
  | [], _ => true
  | _ :: _, [] => false
  | a :: as, b :: bs => decide (a < b) || (a == b && charListLE as bs)

/-- The decimal digit character of `n % 10`. -/
def digitChar (n : Nat) : Char :=
  if n % 10 = 0 then '0'
  else if n % 10 = 1 then '1'
  else if n % 10 = 2 then '2'
  else if n % 10 = 3 then '3'
  else if n % 10 = 4 then '4'
  else if n % 10 = 5 then '5'
  else if n % 10 = 6 then '6'
  else if n % 10 = 7 then '7'
  else if n % 10 = 8 then '8'
  else '9'

/-- Decimal digits of a natural number, least significant first; the first
argument is recursion fuel (any fuel above the digit count is enough). -/
def revDigitsAux : Nat → Nat → List Char
  | 0, _ => []
  | fuel + 1, n => if n < 10 then [digitChar n] else digitChar n :: revDigitsAux fuel (n / 10)

/-- Printed form of an exam date. Dates are modelled as day numbers, and
`str(exam_date)` as their decimal rendering: a nonempty string made only of
digit characters, which is all the proofs rely on. -/
def dateStr (d : Nat) : List Char := (revDigitsAux (d + 1) d).reverse

/-- Remainder of the list after the first close parenthesis, if any. -/
def findClose : List Char → Option (List Char)
  | [] => none
  | c :: rest => if c = ')' then some rest else findClose rest

/-- Fuel-structured scan removing every parenthetical group, as the
left-to-right `re.sub` of a pattern matching an open parenthesis, a run of
non-close characters and a close parenthesis: an open parenthesis with a
later close is removed together with everything up to that close, an open
parenthesis with no later close is kept. -/
def stripParensAux : Nat → List Char → List Char
  | 0, l => l
  | _ + 1, [] => []
  | fuel + 1, c :: rest =>
    if c = '(' then
      match findClose rest with
      | some after => stripParensAux fuel after
      | none => c :: stripParensAux fuel rest
    else c :: stripParensAux fuel rest

/-- Remove all parenthetical groups from a string. -/
def stripParens (l : List Char) : List Char := stripParensAux l.length l

/-- Stable insertion of an element into a list: it lands before the first
element it compares at-most to, hence after every earlier equal element. -/
def insertLE {α : Type} (le : α → α → Bool) (a : α) : List α → List α
  | [] => [a]
  | b :: bs => if le a b then a :: b :: bs else b :: insertLE le a bs

/-- Stable insertion sort; models Python's stable `list.sort` and the
stable multi-key sort used by `DataFrame.sort_values` on column lists. -/
def sortByLE {α : Type} (le : α → α → Bool) : List α → List α
  | [] => []
  | a :: as => insertLE le a (sortByLE le as)

/-! ## Data model of src/logic.py

A `Teacher` is one row of the supervisor table (`teachers_df`): name,
specialty, daily capacity (`max_per_day`, already converted by `int`, the
source default being 999), raw unavailability text. An `Exam` is one row of
the exam table after date/time parsing. An `Assignment` is one record of the
`assignments` list built by `distribute_invigilators`; the Arabic `notes`
field, which is one of two fixed strings chosen by `is_different_specialty`,
is modelled by the Boolean `different_specialty`. A `ShortageWarning` is one
record of `warnings_list`; its message carries the two numbers `needed` and
`assigned_count`, modelled as the fields `required` and `filled`; the field
`sect` models the Python key `section`. -/

structure Teacher where
  teacher_name : List Char
  specialty : List Char
  max_per_day : Nat
  unavailable : List Char
deriving DecidableEq

structure Exam where
  exam_date : Nat
  start_time : Option Nat
  end_time : Option Nat
  subject : List Char
  level : List Char
  sect : List Char
  invigilators_needed : Nat
deriving DecidableEq

structure Assignment where
  exam_date : Nat
  start_time : Option Nat
  end_time : Option Nat
  subject : List Char
  level : List Char
  sect : List Char
  teacher_name : List Char
  specialty : List Char
  different_specialty : Bool
deriving DecidableEq

structure ShortageWarning where
  exam_date : Nat
  start_time : Option Nat
  end_time : Option Nat
  subject : List Char
  level : List Char
  sect : List Char
  required : Nat
  filled : Nat
deriving DecidableEq

/-- One entry of the `eligible` list built by `get_eligible_teachers`. -/
structure Eligible where
  teacher_name : List Char
  specialty : List Char
  is_different_specialty : Bool
  total_load : Nat
  daily_load : Nat
deriving DecidableEq

/-! ## Functions of src/logic.py -/

/-- `check_time_conflict` (logic.py line 25): two slots overlap when neither
ends at or before the other starts; any missing endpoint reports no
conflict. -/
def check_time_conflict (exam1_start exam1_end exam2_start exam2_end : Option Nat) : Bool :=
  match exam1_start, exam1_end, exam2_start, exam2_end with
  | some s1, some e1, some s2, some e2 => !(decide (e1 ≤ s2) || decide (e2 ≤ s1))
  | _, _, _, _ => false

/-- `calculate_teacher_load` (logic.py line 34): total assignments of a
teacher. -/
def calculate_teacher_load (assignments : List Assignment) (teacher_name : List Char) : Nat :=
  (assignments.filter (fun a => a.teacher_name == teacher_name)).length

/-- `calculate_daily_load` (logic.py line 39): assignments of a teacher on a
given date. -/
def calculate_daily_load (assignments : List Assignment) (teacher_name : List Char)
    (exam_date : Nat) : Nat :=
  (assignments.filter (fun a =>
    a.teacher_name == teacher_name && a.exam_date == exam_date)).length

/-- `is_teacher_available` (logic.py line 46): the stripped unavailability
text, when nonempty and not the string "nan", excludes the teacher whenever
it contains the printed exam date; otherwise the teacher is available unless
some recorded assignment of the same teacher on the same date has a
conflicting time slot. -/
def is_teacher_available (teacher : Teacher) (exam_date : Nat)
    (start_time end_time : Option Nat) (assignments : List Assignment) : Bool :=
  let unavailable := stripChars teacher.unavailable
  if (!unavailable.isEmpty && !(unavailable == "nan".data))
      && hasSub (dateStr exam_date) unavailable then
    false
  else
    !(assignments.any (fun a =>
      a.teacher_name == teacher.teacher_name && a.exam_date == exam_date &&
      check_time_conflict start_time end_time a.start_time a.end_time))

/-- Composite sort rank of the specialty flag: different specialty (rank 0)
before same specialty (rank 1); this is `not is_different_specialty` of the
source's sort key. -/
def specialtyRank (e : Eligible) : Nat := cond e.is_different_specialty 0 1

/-- The loop body of the filter stage of `get_eligible_teachers` (logic.py
lines 77-102): `none` when the teacher is unavailable or, with the daily
limit enforced, at or over their daily capacity; otherwise the eligibility
record of this teacher. -/
def eligEntry (exam_subject : List Char) (exam_date : Nat)
    (start_time end_time : Option Nat) (assignments : List Assignment)
    (max_daily_limit : Bool) (teacher : Teacher) : Option Eligible :=
  let specialty := stripChars teacher.specialty
  if !(is_teacher_available teacher exam_date start_time end_time assignments) then
    none
  else if max_daily_limit
      && decide (teacher.max_per_day ≤
           calculate_daily_load assignments teacher.teacher_name exam_date) then
    none
  else
    some {
      teacher_name := teacher.teacher_name
      specialty := specialty
      is_different_specialty := !(lowerChars specialty == lowerChars exam_subject)
      total_load := calculate_teacher_load assignments teacher.teacher_name
      daily_load := calculate_daily_load assignments teacher.teacher_name exam_date }

/-- The filter stage of `get_eligible_teachers` (logic.py lines 75-102):
the eligibility records of the rows that pass both exclusion checks, in
table order. -/
def eligPre (teachers : List Teacher) (exam_subject : List Char) (exam_date : Nat)
    (start_time end_time : Option Nat) (assignments : List Assignment)
    (max_daily_limit : Bool) : List Eligible :=
  teachers.filterMap
    (eligEntry exam_subject exam_date start_time end_time assignments max_daily_limit)

/-- The sort comparator of `get_eligible_teachers` (logic.py lines 105-109):
the ascending tuple key (not different-specialty, total load, name). -/
def eligLE (a b : Eligible) : Bool :=
  decide (specialtyRank a < specialtyRank b) ||
  (specialtyRank a == specialtyRank b &&
    (decide (a.total_load < b.total_load) ||
      (a.total_load == b.total_load && charListLE a.teacher_name b.teacher_name)))

/-- `get_eligible_teachers` (logic.py line 67): filter, then stable sort by
the composite priority key. -/
def get_eligible_teachers (teachers : List Teacher) (exam_subject : List Char)
    (exam_date : Nat) (start_time end_time : Option Nat)
    (assignments : List Assignment) (max_daily_limit : Bool) : List Eligible :=
  sortByLE eligLE
    (eligPre teachers exam_subject exam_date start_time end_time assignments max_daily_limit)

/-- The assignment record appended for one filled slot of a session
(logic.py lines 170-180); the looked-up fields are stripped exactly where
the source strips them. -/
def mkAssignment (e : Exam) (t : Eligible) : Assignment :=
  { exam_date := e.exam_date
    start_time := e.start_time
    end_time := e.end_time
    subject := stripChars e.subject
    level := stripChars e.level
    sect := stripChars e.sect
    teacher_name := t.teacher_name
    specialty := t.specialty
    different_specialty := t.is_different_specialty }

/-- The warning record appended for one unfilled slot of a session
(logic.py lines 184-190), carrying the session identity, the required count
and the count assigned so far. -/
def mkWarning (e : Exam) (assigned_count : Nat) : ShortageWarning :=
  { exam_date := e.exam_date
    start_time := e.start_time
    end_time := e.end_time
    subject := stripChars e.subject
    level := stripChars e.level
    sect := stripChars e.sect
    required := e.invigilators_needed
    filled := assigned_count }

/-- The slot loop of `distribute_invigilators` (logic.py lines 166-190):
for each slot index, an index inside the eligible list appends an
assignment and bumps `assigned_count`; an index past its end appends a
shortage warning recording the current `assigned_count`. -/
def slotRun (mkA : Eligible → Assignment) (mkW : Nat → ShortageWarning)
    (eligible : List Eligible) :
    List Nat → Nat → List Assignment × List ShortageWarning
  | [], _ => ([], [])
  | i :: is, assigned_count =>
    match eligible[i]? with
    | some t =>
      let r := slotRun mkA mkW eligible is (assigned_count + 1)
      (mkA t :: r.1, r.2)
    | none =>
      let r := slotRun mkA mkW eligible is assigned_count
      (r.1, mkW assigned_count :: r.2)

/-- The eligible list computed for one session inside the main loop of
`distribute_invigilators` (logic.py lines 162-164): the subject is stripped
by the loop, the daily limit is enforced (the call leaves
`max_daily_limit` at its default `True`). -/
def sessionEligible (teachers : List Teacher) (assignments : List Assignment)
    (e : Exam) : List Eligible :=
  get_eligible_teachers teachers (stripChars e.subject) e.exam_date e.start_time e.end_time
    assignments true

/-- The whole per-session body of the main loop: the eligible list is
computed once, against the assignments recorded before this session, and
the slot loop runs over `range(needed)`. -/
def sessionStep (teachers : List Teacher) (assignments : List Assignment)
    (e : Exam) : List Assignment × List ShortageWarning :=
  slotRun (mkAssignment e) (mkWarning e) (sessionEligible teachers assignments e)
    (List.range e.invigilators_needed) 0

/-- The main loop of `distribute_invigilators` (logic.py lines 152-190) over
the sorted session list, threading the growing assignment and warning
lists. -/
def distributeGo (teachers : List Teacher) :
    List Exam → List Assignment → List ShortageWarning →
    List Assignment × List ShortageWarning
  | [], assignments, warnings_list => (assignments, warnings_list)
  | e :: rest, assignments, warnings_list =>
    let p := sessionStep teachers assignments e
    distributeGo teachers rest (assignments ++ p.1) (warnings_list ++ p.2)

/-- Sort key component for a start time: `None` start times sort after all
parsed ones (`na_position` is `last`), parsed ones by their value. -/
def startKey : Option Nat → Nat × Nat
  | none => (1, 0)
  | some t => (0, t)

/-- The session sort comparator of `distribute_invigilators` (logic.py
line 150): ascending by date, then by start time with missing times
last. -/
def examLE (a b : Exam) : Bool :=
  decide (a.exam_date < b.exam_date) ||
  (a.exam_date == b.exam_date &&
    (decide ((startKey a.start_time).1 < (startKey b.start_time).1) ||
      ((startKey a.start_time).1 == (startKey b.start_time).1 &&
        decide ((startKey a.start_time).2 ≤ (startKey b.start_time).2))))

/-- The optional level filter of `distribute_invigilators` (logic.py
lines 144-145): keep sessions whose stripped level equals the stripped
selected level. -/
def levelFilter (exams : List Exam) (selected_level : Option (List Char)) : List Exam :=
  match selected_level with
  | none => exams
  | some lvl => exams.filter (fun e => stripChars e.level == stripChars lvl)

/-- The session processing order of `distribute_invigilators` (logic.py
lines 141-150): the level-filtered sessions stably sorted by
(date, start time) ascending. -/
def sortedSessions (exams : List Exam) (selected_level : Option (List Char)) : List Exam :=
  sortByLE examLE (levelFilter exams selected_level)

/-- `distribute_invigilators` (logic.py line 127): sort the (optionally
level-filtered) sessions chronologically and run the main loop with empty
assignment and warning lists. -/
def distribute_invigilators (teachers : List Teacher) (exams : List Exam)
    (selected_level : Option (List Char)) :
    List Assignment × List ShortageWarning :=
  distributeGo teachers (sortedSessions exams selected_level) [] []

/-! ## Data model and functions of src/app_with_sections.py -/

/-- `normalize_subject_name` (app_with_sections.py line 103): strip, remove
parenthetical groups, strip again. Note there is no case folding here. -/
def normalize_subject_name (s : List Char) : List Char :=
  stripChars (stripParens (stripChars s))

/-- One teacher row as used by `assign_supervisors_smart_v2`: only the name
and specialty columns are read. -/
structure TeacherV2 where
  teacher_name : List Char
  specialty : List Char
deriving DecidableEq

/-- One exam row of the sections variant (built by `parse_exam_schedule`,
possibly expanded by `expand_exams_by_sections`); the field `sect` models
the Python key `section`, and `start_time`/`end_time` are the fixed
clock-string fields of the source rows. -/
structure SExam where
  date : Nat
  session : List Char
  start_time : List Char
  end_time : List Char
  subject : List Char
  subject_normalized : List Char
  level : List Char
  grade : List Char
  sect : List Char
  supervisor1 : List Char
  supervisor2 : List Char
deriving DecidableEq

/-- The four grade words captured by the section-name pattern of
`expand_exams_by_sections` (app_with_sections.py line 171). -/
def gradeWords : List (List Char) := ["أول".data, "ثاني".data, "ثالث".data, "رابع".data]

/-- Leftmost match of the grade alternation inside a section name, trying
the alternatives in pattern order at each position; `none` when the name
contains no grade word. -/
def extractGrade : List Char → Option (List Char)
  | [] => none
  | c :: rest =>
    match gradeWords.find? (fun w => leadsWith w (c :: rest)) with
    | some w => some w
    | none => extractGrade rest

/-- The sections whose extracted grade equals the given grade: the filter
`sections_df[sections_df['grade'] == exam_grade]` of
`expand_exams_by_sections` (a section with no extracted grade matches
nothing). -/
def matchingSections (secs : List (List Char)) (g : List Char) : List (List Char) :=
  secs.filter (fun s => extractGrade s == some g)

/-- The accumulating row loop of `expand_exams_by_sections`
(app_with_sections.py lines 173-189): a session with matching sections
contributes one copy per section carrying that section's identifier, a
session with none contributes itself unchanged. -/
def expandGo (secs : List (List Char)) : List SExam → List SExam → List SExam
  | [], acc => acc
  | e :: rest, acc =>
    let ms := matchingSections secs e.grade
    expandGo secs rest
      (acc ++ (if ms.isEmpty then [e] else ms.map (fun s => { e with sect := s })))

/-- `expand_exams_by_sections` (app_with_sections.py line 161): an absent or
empty sections table returns the exam table unchanged; otherwise every row
is expanded by its matching sections. -/
def expand_exams_by_sections (exams : List SExam)
    (sections : Option (List (List Char))) : List SExam :=
  match sections with
  | none => exams
  | some secs => if secs.length = 0 then exams else expandGo secs exams []

/-- The per-run counters of `assign_supervisors_smart_v2`
(app_with_sections.py lines 213-216), modelled as functions from names (and
day numbers, standing for the `date_str` keys) to counts. -/
structure V2State where
  teacher_daily : List Char → Nat → Nat
  teacher_total : List Char → Nat
  section_daily : List Char → Nat → Nat
  section_total : List Char → Nat

/-- Increment a per-(name, date) counter. -/
def bumpDaily (f : List Char → Nat → Nat) (n : List Char) (d : Nat) :
    List Char → Nat → Nat :=
  fun m e => if m = n ∧ e = d then f m e + 1 else f m e

/-- Increment a per-name counter. -/
def bumpTotal (f : List Char → Nat) (n : List Char) : List Char → Nat :=
  fun m => if m = n then f m + 1 else f m

/-- Python `dict(zip(keys, values)).get(k, dflt)`: the value of the last
pair with the given key, or the default. -/
def dictGet (pairs : List (List Char × List Char)) (k dflt : List Char) : List Char :=
  match pairs.reverse.find? (fun p => p.1 == k) with
  | some p => p.2
  | none => dflt

/-- The `teacher_specialty` dictionary of `assign_supervisors_smart_v2`
(app_with_sections.py lines 204-207): each teacher's name paired with their
normalized specialty. -/
def specPairs (teachers : List TeacherV2) : List (List Char × List Char) :=
  teachers.map (fun t => (t.teacher_name, normalize_subject_name t.specialty))

/-- The supervisor-1 candidate pool (app_with_sections.py lines 229-233):
teachers under 3 same-day assignments whose stripped normalized specialty
differs from the stripped normalized subject. -/
def availTeachers1 (tlist : List (List Char)) (tspec : List (List Char × List Char))
    (st : V2State) (date : Nat) (subjN : List Char) : List (List Char) :=
  tlist.filter (fun t =>
    decide (st.teacher_daily t date < 3) &&
    !(stripChars (dictGet tspec t []) == stripChars subjN))

/-- The supervisor-2 candidate pool for grade-one sessions
(app_with_sections.py lines 248-253): as pool 1, additionally excluding the
already chosen supervisor 1 (no exclusion when none was chosen). -/
def availTeachers2 (tlist : List (List Char)) (tspec : List (List Char × List Char))
    (st : V2State) (date : Nat) (subjN : List Char)
    (sup1 : Option (List Char)) : List (List Char) :=
  tlist.filter (fun t =>
    (match sup1 with
     | some s => !(t == s)
     | none => true) &&
    (decide (st.teacher_daily t date < 3) &&
      !(stripChars (dictGet tspec t []) == stripChars subjN)))

/-- One iteration of the assignment loop of `assign_supervisors_smart_v2`
(app_with_sections.py lines 219-269): choose supervisor 1 from the load-
sorted pool 1 and update the exam row in place and the counters; then for a
grade-one session choose supervisor 2 from pool 2 likewise, and otherwise
write the session's matching section into supervisor 2 when it is nonempty
and present in the sections list. -/
def v2Step (tlist : List (List Char)) (tspec : List (List Char × List Char))
    (slist : List (List Char)) (st : V2State) (e : SExam) : SExam × V2State :=
  let date := e.date
  let subjN := e.subject_normalized
  let is_grade_one := hasSub "أول".data e.level
  match sortByLE (fun a b => decide (st.teacher_total a ≤ st.teacher_total b))
      (availTeachers1 tlist tspec st date subjN) with
  | [] =>
    if is_grade_one then
      match sortByLE (fun a b => decide (st.teacher_total a ≤ st.teacher_total b))
          (availTeachers2 tlist tspec st date subjN none) with
      | [] => (e, st)
      | t2 :: _ =>
        ({ e with supervisor2 := t2 },
         { st with teacher_daily := bumpDaily st.teacher_daily t2 date,
                   teacher_total := bumpTotal st.teacher_total t2 })
    else
      if !e.sect.isEmpty && slist.contains e.sect then
        ({ e with supervisor2 := e.sect },
         { st with section_daily := bumpDaily st.section_daily e.sect date,
                   section_total := bumpTotal st.section_total e.sect })
      else (e, st)
  | t1 :: _ =>
    let st1 : V2State :=
      { st with teacher_daily := bumpDaily st.teacher_daily t1 date,
                teacher_total := bumpTotal st.teacher_total t1 }
    let e1 : SExam := { e with supervisor1 := t1 }
    if is_grade_one then
      match sortByLE (fun a b => decide (st1.teacher_total a ≤ st1.teacher_total b))
          (availTeachers2 tlist tspec st1 date subjN (some t1)) with
      | [] => (e1, st1)
      | t2 :: _ =>
        ({ e1 with supervisor2 := t2 },
         { st1 with teacher_daily := bumpDaily st1.teacher_daily t2 date,
                    teacher_total := bumpTotal st1.teacher_total t2 })
    else
      if !e.sect.isEmpty && slist.contains e.sect then
        ({ e1 with supervisor2 := e.sect },
         { st1 with section_daily := bumpDaily st1.section_daily e.sect date,
                    section_total := bumpTotal st1.section_total e.sect })
      else (e1, st1)

/-- The row loop of `assign_supervisors_smart_v2`, accumulating the updated
exam rows (the in-place `exams_df.at[idx, ...]` writes of the source) and
threading the counters. -/
def assignV2Go (tlist : List (List Char)) (tspec : List (List Char × List Char))
    (slist : List (List Char)) :
    List SExam → V2State → List SExam → List SExam × V2State
  | [], st, acc => (acc, st)
  | e :: rest, st, acc =>
    let p := v2Step tlist tspec slist st e
    assignV2Go tlist tspec slist rest p.2 (acc ++ [p.1])

/-- The all-zero counter state. -/
def emptyV2State : V2State :=
  { teacher_daily := fun _ _ => 0
    teacher_total := fun _ => 0
    section_daily := fun _ _ => 0
    section_total := fun _ => 0 }

/-- `assign_supervisors_smart_v2` (app_with_sections.py line 193). Its first
component is the exam table as it stands after the run: the source writes
the chosen supervisors into the caller's `exams_df` in place and returns
that same table, so this component is at once the returned table and the
caller's table after the run. The other components are the returned
`teacher_total_count` and `section_total_count`. -/
def assign_supervisors_smart_v2 (exams : List SExam) (teachers : List TeacherV2)
    (sections : Option (List (List Char))) :
    List SExam × (List Char → Nat) × (List Char → Nat) :=
  let tspec := specPairs teachers
  let tlist := teachers.map TeacherV2.teacher_name
  let slist := match sections with
    | some s => s
    | none => []
  let r := assignV2Go tlist tspec slist exams emptyV2State []
  (r.1, r.2.teacher_total, r.2.section_total)

/-! ## Claim-side definitions -/

/-- The strict composite eligibility order asserted by the specification for
the ranked eligible list: different-specialty supervisors strictly first,
then ascending total load, then ascending name. -/
def eligKeyLT (a b : Eligible) : Prop :=
  specialtyRank a < specialtyRank b ∨
  (specialtyRank a = specialtyRank b ∧
    (a.total_load < b.total_load ∨
      (a.total_load = b.total_load ∧ charListLT a.teacher_name b.teacher_name = true)))

/-- The no-double-booking relation between two assignment records: equal
supervisor and equal date force non-overlapping time slots. -/
def noTimeClash (a b : Assignment) : Prop :=
  a.teacher_name = b.teacher_name → a.exam_date = b.exam_date →
  check_time_conflict a.start_time a.end_time b.start_time b.end_time = false

/-- The subject normalization asserted by the specification for the
exclude-same-specialty policy: case-insensitive on top of parenthetical
stripping. The source's `normalize_subject_name` performs no case folding,
which is exactly what the counterexample to claim C7 exhibits. -/
def normalizeCI (s : List Char) : List Char := lowerChars (normalize_subject_name s)

/-- Erase the two supervisor fields of an exam row: two rows agree under
`clearSupervisors` exactly when every other field agrees. -/
def clearSupervisors (e : SExam) : SExam := { e with supervisor1 := [], supervisor2 := [] }

/-! ## Infrastructure: the stable insertion sort -/

theorem insertLE_perm {α : Type} (le : α → α → Bool) (a : α) (l : List α) :
    (insertLE le a l).Perm (a :: l) := by
  induction l with
  | nil => exact List.Perm.refl _
  | cons b bs ih =>
    by_cases h : le a b = true
    · rw [insertLE, if_pos h]
    · rw [insertLE, if_neg h]
      exact (ih.cons b).trans (List.Perm.swap a b bs)

theorem sortByLE_perm {α : Type} (le : α → α → Bool) (l : List α) :
    (sortByLE le l).Perm l := by
  induction l with
  | nil => exact List.Perm.refl _
  | cons a as ih => exact (insertLE_perm le a (sortByLE le as)).trans (ih.cons a)

theorem mem_sortByLE {α : Type} {le : α → α → Bool} {x : α} {l : List α} :
    x ∈ sortByLE le l ↔ x ∈ l :=
  (sortByLE_perm le l).mem_iff

theorem mem_insertLE {α : Type} {le : α → α → Bool} {x a : α} {l : List α} :
    x ∈ insertLE le a l ↔ x = a ∨ x ∈ l := by
  rw [(insertLE_perm le a l).mem_iff, List.mem_cons]

theorem insertLE_pairwise {α : Type} {le : α → α → Bool}
    (htr : ∀ a b c, le a b = true → le b c = true → le a c = true)
    (hto : ∀ a b, (le a b || le b a) = true)
    (a : α) {l : List α} (hl : l.Pairwise (fun x y => le x y = true)) :
    (insertLE le a l).Pairwise (fun x y => le x y = true) := by
  induction l with
  | nil => simp [insertLE]
  | cons b bs ih =>
    rw [List.pairwise_cons] at hl
    obtain ⟨hb, hbs⟩ := hl
    by_cases h : le a b = true
    · rw [insertLE, if_pos h]
      refine List.pairwise_cons.2 ⟨?_, List.pairwise_cons.2 ⟨hb, hbs⟩⟩
      intro c hc
      rcases List.mem_cons.1 hc with rfl | hc
      · exact h
      · exact htr a b c h (hb c hc)
    · rw [insertLE, if_neg h]
      refine List.pairwise_cons.2 ⟨?_, ih hbs⟩
      intro c hc
      rcases mem_insertLE.1 hc with h1 | hc
      · rw [h1]
        have htot := hto a b
        simp only [Bool.or_eq_true] at htot
        rcases htot with h1 | h1
        · exact absurd h1 h
        · exact h1
      · exact hb c hc

theorem sortByLE_pairwise {α : Type} {le : α → α → Bool}
    (htr : ∀ a b c, le a b = true → le b c = true → le a c = true)
    (hto : ∀ a b, (le a b || le b a) = true)
    (l : List α) : (sortByLE le l).Pairwise (fun x y => le x y = true) := by
  induction l with
  | nil => simp [sortByLE]
  | cons a as ih => exact insertLE_pairwise htr hto a ih

/-! ## Infrastructure: the string comparators -/

theorem charListLE_total : ∀ a b : List Char, (charListLE a b || charListLE b a) = true := by
  intro a
  induction a with
  | nil => intro b; cases b <;> simp [charListLE]
  | cons x xs ih =>
    intro b
    cases b with
    | nil => simp [charListLE]
    | cons y ys =>
      simp only [charListLE, Bool.or_eq_true, Bool.and_eq_true, decide_eq_true_eq,
        beq_iff_eq]
      rcases lt_trichotomy x y with h | h | h
      · exact Or.inl (Or.inl h)
      · subst h
        have htot := ih ys
        simp only [Bool.or_eq_true] at htot
        rcases htot with hc | hc
        · exact Or.inl (Or.inr ⟨rfl, hc⟩)
        · exact Or.inr (Or.inr ⟨rfl, hc⟩)
      · exact Or.inr (Or.inl h)

theorem charListLE_trans : ∀ a b c : List Char,
    charListLE a b = true → charListLE b c = true → charListLE a c = true := by
  intro a
  induction a with
  | nil => intro b c _ _; rfl
  | cons x xs ih =>
    intro b c hab hbc
    cases b with
    | nil => simp [charListLE] at hab
    | cons y ys =>
      cases c with
      | nil => simp [charListLE] at hbc
      | cons z zs =>
        simp only [charListLE, Bool.or_eq_true, Bool.and_eq_true, decide_eq_true_eq,
          beq_iff_eq] at hab hbc ⊢
        rcases hab with h1 | ⟨rfl, h1⟩
        · rcases hbc with h2 | ⟨rfl, h2⟩
          · exact Or.inl (lt_trans h1 h2)
          · exact Or.inl h1
        · rcases hbc with h2 | ⟨rfl, h2⟩
          · exact Or.inl h2
          · exact Or.inr ⟨rfl, ih ys zs h1 h2⟩

theorem charListLE_ne_lt : ∀ a b : List Char,
    charListLE a b = true → a ≠ b → charListLT a b = true := by
  intro a
  induction a with
  | nil =>
    intro b _ hne
    cases b with
    | nil => exact absurd rfl hne
    | cons y ys => rfl
  | cons x xs ih =>
    intro b hle hne
    cases b with
    | nil => simp [charListLE] at hle
    | cons y ys =>
      simp only [charListLE, charListLT, Bool.or_eq_true, Bool.and_eq_true,
        decide_eq_true_eq, beq_iff_eq] at hle ⊢
      rcases hle with h | ⟨rfl, h⟩
      · exact Or.inl h
      · refine Or.inr ⟨rfl, ih ys h ?_⟩
        intro hxy
        exact hne (by rw [hxy])

theorem eligLE_total (a b : Eligible) : (eligLE a b || eligLE b a) = true := by
  simp only [eligLE, Bool.or_eq_true, Bool.and_eq_true, decide_eq_true_eq, beq_iff_eq]
  rcases Nat.lt_trichotomy (specialtyRank a) (specialtyRank b) with h | h | h
  · exact Or.inl (Or.inl h)
  · rcases Nat.lt_trichotomy a.total_load b.total_load with h2 | h2 | h2
    · exact Or.inl (Or.inr ⟨h, Or.inl h2⟩)
    · have htot := charListLE_total a.teacher_name b.teacher_name
      simp only [Bool.or_eq_true] at htot
      rcases htot with hc | hc
      · exact Or.inl (Or.inr ⟨h, Or.inr ⟨h2, hc⟩⟩)
      · exact Or.inr (Or.inr ⟨h.symm, Or.inr ⟨h2.symm, hc⟩⟩)
    · exact Or.inr (Or.inr ⟨h.symm, Or.inl h2⟩)
  · exact Or.inr (Or.inl h)

theorem eligLE_trans (a b c : Eligible)
    (h1 : eligLE a b = true) (h2 : eligLE b c = true) : eligLE a c = true := by
  simp only [eligLE, Bool.or_eq_true, Bool.and_eq_true, decide_eq_true_eq,
    beq_iff_eq] at h1 h2 ⊢
  rcases h1 with h1 | ⟨e1, h1⟩
  · rcases h2 with h2 | ⟨e2, h2⟩
    · exact Or.inl (lt_trans h1 h2)
    · exact Or.inl (e2 ▸ h1)
  · rcases h2 with h2 | ⟨e2, h2⟩
    · exact Or.inl (e1.symm ▸ h2)
    · refine Or.inr ⟨e1.trans e2, ?_⟩
      rcases h1 with h1 | ⟨f1, h1⟩
      · rcases h2 with h2 | ⟨f2, h2⟩
        · exact Or.inl (lt_trans h1 h2)
        · exact Or.inl (f2 ▸ h1)
      · rcases h2 with h2 | ⟨f2, h2⟩
        · exact Or.inl (f1.symm ▸ h2)
        · exact Or.inr ⟨f1.trans f2, charListLE_trans _ _ _ h1 h2⟩

theorem eligLE_strict {a b : Eligible} (h : eligLE a b = true)
    (hne : a.teacher_name ≠ b.teacher_name) : eligKeyLT a b := by
  simp only [eligLE, Bool.or_eq_true, Bool.and_eq_true, decide_eq_true_eq,
    beq_iff_eq] at h
  rcases h with h | ⟨e1, h⟩
  · exact Or.inl h
  · refine Or.inr ⟨e1, ?_⟩
    rcases h with h | ⟨f1, h⟩
    · exact Or.inl h
    · exact Or.inr ⟨f1, charListLE_ne_lt _ _ h hne⟩

theorem examLE_total (a b : Exam) : (examLE a b || examLE b a) = true := by
  simp only [examLE, Bool.or_eq_true, Bool.and_eq_true, decide_eq_true_eq, beq_iff_eq]
  omega

theorem examLE_trans (a b c : Exam)
    (h1 : examLE a b = true) (h2 : examLE b c = true) : examLE a c = true := by
  simp only [examLE, Bool.or_eq_true, Bool.and_eq_true, decide_eq_true_eq,
    beq_iff_eq] at h1 h2 ⊢
  omega

theorem check_time_conflict_symm (s1 e1 s2 e2 : Option Nat) :
    check_time_conflict s1 e1 s2 e2 = check_time_conflict s2 e2 s1 e1 := by
  cases s1 <;> cases e1 <;> cases s2 <;> cases e2 <;>
    simp [check_time_conflict, Bool.or_comm]

/-! ## Infrastructure: substring containment and stripping -/

theorem leadsWith_iff (d : List Char) : ∀ l : List Char, leadsWith d l = true ↔ d <+: l := by
  induction d with
  | nil => intro l; simp [leadsWith]
  | cons x xs ih =>
    intro l
    cases l with
    | nil =>
      simp only [leadsWith]
      constructor
      · intro h; exact absurd h (by simp)
      · intro h
        have := h.length_le
        simp at this
    | cons y ys =>
      simp [leadsWith, Bool.and_eq_true, beq_iff_eq, ih ys, List.cons_prefix_cons]

theorem hasSub_iff (d : List Char) : ∀ l : List Char, hasSub d l = true ↔ d <:+: l := by
  intro l
  induction l with
  | nil =>
    simp [hasSub, List.isEmpty_iff, List.infix_nil]
  | cons c t ih =>
    rw [hasSub]
    simp [Bool.or_eq_true, leadsWith_iff, ih, List.infix_cons_iff]

theorem dropWhile_dropWhile (p : Char → Bool) (l : List Char) :
    (l.dropWhile p).dropWhile p = l.dropWhile p := by
  induction l with
  | nil => rfl
  | cons c t ih =>
    by_cases h : p c = true <;> simp [List.dropWhile_cons, h, ih]

theorem dropTrail_leading (l : List Char) : dropTrail l <+: l := by
  refine List.reverse_suffix.1 ?_
  rw [dropTrail, List.reverse_reverse]
  exact List.dropWhile_suffix wsChar

theorem dropTrail_keeps_clean {l : List Char} (h : l.dropWhile wsChar = l) :
    (dropTrail l).dropWhile wsChar = dropTrail l := by
  rcases hd : dropTrail l with _ | ⟨c, k⟩
  · rfl
  · have hpre : (c :: k) <+: l := hd ▸ dropTrail_leading l
    obtain ⟨t, ht⟩ := hpre
    have hc : wsChar c = false := by
      by_contra hcc
      have hcc' : wsChar c = true := by
        cases hw : wsChar c
        · exact absurd hw hcc
        · rfl
      rw [← ht, List.cons_append, List.dropWhile_cons, if_pos hcc'] at h
      have hlen1 := congrArg List.length h
      have hlen2 : (List.dropWhile wsChar (k ++ t)).length ≤ (k ++ t).length :=
        (List.dropWhile_sublist wsChar).length_le
      simp only [List.length_cons] at hlen1
      omega
    rw [List.dropWhile_cons, if_neg (by simp [hc])]

theorem stripChars_front_clean (l : List Char) :
    (stripChars l).dropWhile wsChar = stripChars l := by
  rw [stripChars]
  exact dropTrail_keeps_clean (dropWhile_dropWhile wsChar l)

theorem dropTrail_dropTrail (l : List Char) : dropTrail (dropTrail l) = dropTrail l := by
  rw [dropTrail, dropTrail, List.reverse_reverse, dropWhile_dropWhile]

theorem stripChars_idem (l : List Char) : stripChars (stripChars l) = stripChars l := by
  conv_lhs => rw [stripChars]
  rw [stripChars_front_clean l, stripChars, dropTrail_dropTrail]

theorem infix_dropWhile {d l : List Char} (hne : d ≠ [])
    (hd : ∀ c ∈ d, wsChar c = false) (h : d <:+: l) : d <:+: l.dropWhile wsChar := by
  induction l with
  | nil => rwa [List.dropWhile_nil]
  | cons c t ih =>
    rw [List.dropWhile_cons]
    by_cases hw : wsChar c = true
    · rw [if_pos hw]
      apply ih
      rcases ( List.infix_cons_iff).1 h with hpre | hinf
      · obtain ⟨d0, ds, rfl⟩ := List.exists_cons_of_ne_nil hne
        rcases ( List.cons_prefix_cons).1 hpre with ⟨rfl, -⟩
        exact absurd hw (by simp [hd d0 (List.mem_cons_self d0 ds)])
      · exact hinf
    · rw [if_neg hw]
      exact h

theorem infix_stripChars {d l : List Char} (hne : d ≠ [])
    (hd : ∀ c ∈ d, wsChar c = false) (h : d <:+: l) : d <:+: stripChars l := by
  have h1 : d <:+: l.dropWhile wsChar := infix_dropWhile hne hd h
  have h2 : d.reverse <:+: (l.dropWhile wsChar).reverse := ( List.reverse_infix).2 h1
  have hne2 : d.reverse ≠ [] := by
    simp [List.reverse_eq_nil_iff]
    exact hne
  have hd2 : ∀ c ∈ d.reverse, wsChar c = false := by
    intro c hc
    exact hd c (List.mem_reverse.1 hc)
  have h3 : d.reverse <:+: ((l.dropWhile wsChar).reverse).dropWhile wsChar :=
    infix_dropWhile hne2 hd2 h2
  rw [stripChars, dropTrail]
  exact ( List.reverse_infix).1 (by rwa [List.reverse_reverse])

/-! ## Infrastructure: the printed date is a nonempty digit string -/

theorem digitChar_bounds (n : Nat) : 48 ≤ (digitChar n).toNat ∧ (digitChar n).toNat ≤ 57 := by
  unfold digitChar
  split
  · decide
  · split
    · decide
    · split
      · decide
      · split
        · decide
        · split
          · decide
          · split
            · decide
            · split
              · decide
              · split
                · decide
                · split
                  · decide
                  · decide

theorem revDigitsAux_digits :
    ∀ fuel n c, c ∈ revDigitsAux fuel n → 48 ≤ c.toNat ∧ c.toNat ≤ 57 := by
  intro fuel
  induction fuel with
  | zero => intro n c hc; simp [revDigitsAux] at hc
  | succ f ih =>
    intro n c hc
    rw [revDigitsAux] at hc
    by_cases h : n < 10
    · rw [if_pos h] at hc
      rcases List.mem_singleton.1 hc with rfl
      exact digitChar_bounds n
    · rw [if_neg h] at hc
      rcases List.mem_cons.1 hc with rfl | hc
      · exact digitChar_bounds n
      · exact ih (n / 10) c hc

theorem revDigitsAux_ne_nil (f n : Nat) (hf : f ≠ 0) : revDigitsAux f n ≠ [] := by
  cases f with
  | zero => exact absurd rfl hf
  | succ f =>
    rw [revDigitsAux]
    by_cases h : n < 10 <;> simp [h]

theorem dateStr_ne_nil (d : Nat) : dateStr d ≠ [] := by
  rw [dateStr, Ne, List.reverse_eq_nil_iff]
  exact revDigitsAux_ne_nil (d + 1) d (by omega)

theorem dateStr_digits {d : Nat} {c : Char} (hc : c ∈ dateStr d) :
    48 ≤ c.toNat ∧ c.toNat ≤ 57 := by
  rw [dateStr, List.mem_reverse] at hc
  exact revDigitsAux_digits (d + 1) d c hc

theorem wsChar_toNat {c : Char} (h : wsChar c = true) : c.toNat ≤ 32 := by
  simp only [wsChar, Bool.or_eq_true, beq_iff_eq] at h
  rcases h with ((((h | h) | h) | h) | h) | h
  · subst h; decide
  · subst h; decide
  · subst h; decide
  · subst h; decide
  · omega
  · omega

theorem dateStr_not_ws (d : Nat) : ∀ c ∈ dateStr d, wsChar c = false := by
  intro c hc
  cases hw : wsChar c
  · rfl
  · have h1 := wsChar_toNat hw
    have h2 := dateStr_digits hc
    omega

theorem not_dateStr_infix_nan (d : Nat) : ¬ (dateStr d <:+: "nan".data) := by
  intro h
  obtain ⟨c, k, hck⟩ := List.exists_cons_of_ne_nil (dateStr_ne_nil d)
  have hmem : c ∈ "nan".data := h.subset (hck ▸ List.mem_cons_self c k)
  have hb := dateStr_digits (hck ▸ List.mem_cons_self c k)
  have : c = 'n' ∨ c = 'a' ∨ c = 'n' := by
    simpa using hmem
  rcases this with rfl | rfl | rfl
  · exact absurd hb (by decide)
  · exact absurd hb (by decide)
  · exact absurd hb (by decide)

/-! ## Infrastructure: load counters -/

theorem calculate_daily_load_append (l1 l2 : List Assignment) (n : List Char) (d : Nat) :
    calculate_daily_load (l1 ++ l2) n d =
      calculate_daily_load l1 n d + calculate_daily_load l2 n d := by
  simp [calculate_daily_load, List.filter_append]

theorem daily_load_le_one {l : List Assignment}
    (h : (l.map Assignment.teacher_name).Nodup) (n : List Char) (d : Nat) :
    calculate_daily_load l n d ≤ 1 := by
  induction l with
  | nil => simp [calculate_daily_load]
  | cons a t ih =>
    simp only [List.map_cons, List.nodup_cons] at h
    rw [calculate_daily_load, List.filter_cons]
    by_cases hm : (a.teacher_name == n && a.exam_date == d) = true
    · rw [if_pos hm]
      have hz : (t.filter (fun x => x.teacher_name == n && x.exam_date == d)) = [] := by
        rw [List.filter_eq_nil_iff]
        intro x hx hxm
        simp only [Bool.and_eq_true, beq_iff_eq] at hm hxm
        apply h.1
        have hmm : x.teacher_name ∈ t.map Assignment.teacher_name :=
          List.mem_map_of_mem _ hx
        rwa [hxm.1, ← hm.1] at hmm
      rw [hz]
      simp
    · rw [if_neg hm]
      exact ih h.2

theorem daily_load_pos_elim {l : List Assignment} {n : List Char} {d : Nat}
    (h : calculate_daily_load l n d ≠ 0) :
    ∃ a ∈ l, a.teacher_name = n ∧ a.exam_date = d := by
  rw [calculate_daily_load] at h
  rcases hq : l.filter (fun a => a.teacher_name == n && a.exam_date == d) with _ | ⟨a, k⟩
  · rw [hq] at h; simp at h
  · have ha : a ∈ l.filter (fun a => a.teacher_name == n && a.exam_date == d) := by
      rw [hq]; exact List.mem_cons_self a k
    rw [List.mem_filter] at ha
    obtain ⟨ha1, ha2⟩ := ha
    simp only [Bool.and_eq_true, beq_iff_eq] at ha2
    exact ⟨a, ha1, ha2⟩

/-! ## Infrastructure: the eligibility filter -/

theorem eligEntry_some_name {exam_subject exam_date start_time end_time assignments
    max_daily_limit} {t : Teacher} {el : Eligible}
    (hf : eligEntry exam_subject exam_date start_time end_time assignments
      max_daily_limit t = some el) :
    el.teacher_name = t.teacher_name := by
  rw [eligEntry] at hf
  by_cases h1 : is_teacher_available t exam_date start_time end_time assignments
  · rw [if_neg (by simp [h1])] at hf
    by_cases h2 : (max_daily_limit && decide (t.max_per_day ≤
        calculate_daily_load assignments t.teacher_name exam_date)) = true
    · rw [if_pos h2] at hf
      exact absurd hf (by simp)
    · rw [if_neg h2] at hf
      have := Option.some.inj hf
      rw [← this]
  · rw [if_pos (by simp [Bool.not_eq_true] at h1 ⊢; exact h1)] at hf
    exact absurd hf (by simp)

theorem eligEntry_some_cond {exam_subject exam_date start_time end_time assignments
    max_daily_limit} {t : Teacher} {el : Eligible}
    (hf : eligEntry exam_subject exam_date start_time end_time assignments
      max_daily_limit t = some el) :
    is_teacher_available t exam_date start_time end_time assignments = true ∧
    (max_daily_limit = true →
      calculate_daily_load assignments t.teacher_name exam_date < t.max_per_day) := by
  rw [eligEntry] at hf
  by_cases h1 : is_teacher_available t exam_date start_time end_time assignments
  · rw [if_neg (by simp [h1])] at hf
    by_cases h2 : (max_daily_limit && decide (t.max_per_day ≤
        calculate_daily_load assignments t.teacher_name exam_date)) = true
    · rw [if_pos h2] at hf
      exact absurd hf (by simp)
    · refine ⟨h1, ?_⟩
      intro hml
      rw [hml] at h2
      simp only [Bool.true_and, decide_eq_true_eq] at h2
      omega
  · rw [if_pos (by simp [Bool.not_eq_true] at h1 ⊢; exact h1)] at hf
    exact absurd hf (by simp)

theorem mem_eligPre {teachers : List Teacher} {exam_subject exam_date start_time end_time
    assignments max_daily_limit} {el : Eligible}
    (h : el ∈ eligPre teachers exam_subject exam_date start_time end_time assignments
      max_daily_limit) :
    ∃ t ∈ teachers, el.teacher_name = t.teacher_name ∧
      is_teacher_available t exam_date start_time end_time assignments = true ∧
      (max_daily_limit = true →
        calculate_daily_load assignments t.teacher_name exam_date < t.max_per_day) := by
  rw [eligPre, List.mem_filterMap] at h
  obtain ⟨t, ht, hf⟩ := h
  obtain ⟨h1, h2⟩ := eligEntry_some_cond hf
  exact ⟨t, ht, eligEntry_some_name hf, h1, h2⟩

theorem mem_get_eligible {teachers : List Teacher} {exam_subject exam_date start_time
    end_time assignments max_daily_limit} {el : Eligible}
    (h : el ∈ get_eligible_teachers teachers exam_subject exam_date start_time end_time
      assignments max_daily_limit) :
    ∃ t ∈ teachers, el.teacher_name = t.teacher_name ∧
      is_teacher_available t exam_date start_time end_time assignments = true ∧
      (max_daily_limit = true →
        calculate_daily_load assignments t.teacher_name exam_date < t.max_per_day) := by
  rw [get_eligible_teachers] at h
  exact mem_eligPre (mem_sortByLE.1 h)

theorem filterMap_name_sublist {α β : Type} (f : α → Option β) (g : α → List Char)
    (n : β → List Char) (hpres : ∀ a b, f a = some b → n b = g a) :
    ∀ l : List α, ((l.filterMap f).map n).Sublist (l.map g) := by
  intro l
  induction l with
  | nil => simp
  | cons a as ih =>
    rw [List.filterMap_cons]
    rcases hf : f a with _ | b
    · simp only [List.map_cons]
      exact ih.cons _
    · simp only [List.map_cons]
      rw [hpres a b hf]
      exact ih.cons₂ _

theorem get_eligible_names_nodup {teachers : List Teacher} {exam_subject exam_date
    start_time end_time assignments max_daily_limit}
    (hn : (teachers.map Teacher.teacher_name).Nodup) :
    ((get_eligible_teachers teachers exam_subject exam_date start_time end_time
      assignments max_daily_limit).map Eligible.teacher_name).Nodup := by
  have hsub : ((eligPre teachers exam_subject exam_date start_time end_time assignments
      max_daily_limit).map Eligible.teacher_name).Sublist
      (teachers.map Teacher.teacher_name) :=
    filterMap_name_sublist _ _ _ (fun a b hf => eligEntry_some_name hf) teachers
  have hnd := hsub.nodup hn
  have hperm : ((get_eligible_teachers teachers exam_subject exam_date start_time end_time
      assignments max_daily_limit).map Eligible.teacher_name).Perm
      ((eligPre teachers exam_subject exam_date start_time end_time assignments
        max_daily_limit).map Eligible.teacher_name) := by
    rw [get_eligible_teachers]
    exact (sortByLE_perm _ _).map _
  exact hperm.nodup_iff.2 hnd

theorem avail_no_conflict {t : Teacher} {exam_date : Nat} {start_time end_time : Option Nat}
    {assignments : List Assignment}
    (h : is_teacher_available t exam_date start_time end_time assignments = true) :
    ∀ a ∈ assignments, a.teacher_name = t.teacher_name → a.exam_date = exam_date →
      check_time_conflict start_time end_time a.start_time a.end_time = false := by
  intro a ha hname hdate
  rw [is_teacher_available] at h
  by_cases h1 : ((!(stripChars t.unavailable).isEmpty
      && !(stripChars t.unavailable == "nan".data))
      && hasSub (dateStr exam_date) (stripChars t.unavailable)) = true
  · rw [if_pos h1] at h
    exact absurd h (by simp)
  · rw [if_neg h1] at h
    simp only [Bool.not_eq_true'] at h
    rw [List.any_eq_false] at h
    have := h a ha
    simp only [hname, hdate, beq_self_eq_true, Bool.true_and, Bool.not_eq_true] at this
    rcases hc : check_time_conflict start_time end_time a.start_time a.end_time
    · rfl
    · rw [hc] at this
      simp at this

/-! ## Infrastructure: the slot loop -/

theorem slotRun_spec (mkA : Eligible → Assignment) (mkW : Nat → ShortageWarning)
    (eligible : List Eligible) :
    ∀ (k s cnt : Nat),
      slotRun mkA mkW eligible (List.range' s k) cnt =
        (((eligible.drop s).take k).map mkA,
         List.replicate (k - (eligible.length - s))
           (mkW (cnt + min k (eligible.length - s)))) := by
  intro k
  induction k with
  | zero =>
    intro s cnt
    simp [slotRun]
  | succ kk ih =>
    intro s cnt
    rw [ List.range'_succ]
    by_cases h : s < eligible.length
    · have hget : eligible[s]? = some eligible[s] := List.getElem?_eq_getElem h
      simp only [slotRun, hget]
      rw [ih (s + 1) (cnt + 1)]
      simp only [Prod.mk.injEq]
      constructor
      · rw [List.drop_eq_getElem_cons h, List.take_succ_cons, List.map_cons]
      · have h1 : kk + 1 - (eligible.length - s) = kk - (eligible.length - (s + 1)) := by
          omega
        have h2 : cnt + 1 + min kk (eligible.length - (s + 1)) =
            cnt + min (kk + 1) (eligible.length - s) := by
          omega
        rw [← h1, h2]
    · have hget : eligible[s]? = none := List.getElem?_eq_none (by omega)
      simp only [slotRun, hget]
      rw [ih (s + 1) cnt]
      have hd : eligible.drop s = [] := List.drop_eq_nil_of_le (by omega)
      have hd2 : eligible.drop (s + 1) = [] := List.drop_eq_nil_of_le (by omega)
      rw [hd, hd2]
      simp only [List.take_nil, List.map_nil, Prod.mk.injEq, true_and]
      have h1 : eligible.length - s = 0 := by omega
      have h2 : eligible.length - (s + 1) = 0 := by omega
      rw [h1, h2]
      simp [List.replicate_succ]

theorem sessionStep_eq (teachers : List Teacher) (assignments : List Assignment)
    (e : Exam) :
    sessionStep teachers assignments e =
      (((sessionEligible teachers assignments e).take e.invigilators_needed).map
         (mkAssignment e),
       List.replicate
         (e.invigilators_needed - (sessionEligible teachers assignments e).length)
         (mkWarning e
           (min e.invigilators_needed (sessionEligible teachers assignments e).length))) := by
  rw [sessionStep, List.range_eq_range', slotRun_spec]
  simp

/-! ## Infrastructure: per-session facts of the main loop -/

theorem sessionEligible_names_nodup {teachers : List Teacher} {asg : List Assignment}
    {e : Exam} (hn : (teachers.map Teacher.teacher_name).Nodup) :
    ((sessionEligible teachers asg e).map Eligible.teacher_name).Nodup := by
  rw [sessionEligible]
  exact get_eligible_names_nodup hn

theorem mem_sessionEligible {teachers : List Teacher} {asg : List Assignment} {e : Exam}
    {el : Eligible} (h : el ∈ sessionEligible teachers asg e) :
    ∃ t ∈ teachers, el.teacher_name = t.teacher_name ∧
      is_teacher_available t e.exam_date e.start_time e.end_time asg = true ∧
      calculate_daily_load asg t.teacher_name e.exam_date < t.max_per_day := by
  rw [sessionEligible] at h
  obtain ⟨t, ht, h1, h2, h3⟩ := mem_get_eligible h
  exact ⟨t, ht, h1, h2, h3 rfl⟩

theorem sessionStep_fst_names (teachers : List Teacher) (asg : List Assignment)
    (e : Exam) :
    ((sessionStep teachers asg e).1).map Assignment.teacher_name =
      ((sessionEligible teachers asg e).take e.invigilators_needed).map
        Eligible.teacher_name := by
  rw [sessionStep_eq]
  dsimp only
  rw [List.map_map]
  rfl

theorem sessionStep_names_nodup {teachers : List Teacher} {asg : List Assignment}
    {e : Exam} (hn : (teachers.map Teacher.teacher_name).Nodup) :
    (((sessionStep teachers asg e).1).map Assignment.teacher_name).Nodup := by
  rw [sessionStep_fst_names]
  exact ((List.take_sublist _ _).map _).nodup (sessionEligible_names_nodup hn)

theorem sessionStep_fst_mem {teachers : List Teacher} {asg : List Assignment} {e : Exam}
    {a : Assignment} (h : a ∈ (sessionStep teachers asg e).1) :
    ∃ el ∈ sessionEligible teachers asg e, a = mkAssignment e el := by
  rw [sessionStep_eq] at h
  dsimp only at h
  rw [List.mem_map] at h
  obtain ⟨el, hel, ha⟩ := h
  exact ⟨el, (List.take_sublist _ _).subset hel, ha.symm⟩

/-! ## Infrastructure: the two run invariants of the main loop -/

theorem distributeGo_daily (teachers : List Teacher)
    (hn : (teachers.map Teacher.teacher_name).Nodup) :
    ∀ (exams : List Exam) (asg : List Assignment) (ws : List ShortageWarning),
      (∀ t ∈ teachers, ∀ d, calculate_daily_load asg t.teacher_name d ≤ t.max_per_day) →
      ∀ t ∈ teachers, ∀ d,
        calculate_daily_load (distributeGo teachers exams asg ws).1 t.teacher_name d ≤
          t.max_per_day := by
  intro exams
  induction exams with
  | nil =>
    intro asg ws hin t ht d
    exact hin t ht d
  | cons e rest ih =>
    intro asg ws hin t ht d
    simp only [distributeGo]
    refine ih _ _ ?_ t ht d
    intro t2 ht2 d2
    rw [calculate_daily_load_append]
    by_cases hz : calculate_daily_load (sessionStep teachers asg e).1 t2.teacher_name d2 = 0
    · have := hin t2 ht2 d2
      omega
    · obtain ⟨a, ha, haname, hadate⟩ := daily_load_pos_elim hz
      obtain ⟨el, hel, rfl⟩ := sessionStep_fst_mem ha
      obtain ⟨t3, ht3, hname3, _, hload3⟩ := mem_sessionEligible hel
      have hname2 : el.teacher_name = t2.teacher_name := haname
      have hdate2 : e.exam_date = d2 := hadate
      have ht23 : t3 = t2 := by
        apply List.inj_on_of_nodup_map hn ht3 ht2
        rw [← hname3, hname2]
      have hlt : calculate_daily_load asg t2.teacher_name d2 < t2.max_per_day := by
        rw [← hdate2, ← ht23]
        exact hload3
      have hle1 : calculate_daily_load (sessionStep teachers asg e).1 t2.teacher_name d2 ≤ 1 :=
        daily_load_le_one (sessionStep_names_nodup hn) _ _
      omega

theorem distributeGo_pairwise (teachers : List Teacher)
    (hn : (teachers.map Teacher.teacher_name).Nodup) :
    ∀ (exams : List Exam) (asg : List Assignment) (ws : List ShortageWarning),
      asg.Pairwise noTimeClash →
      ((distributeGo teachers exams asg ws).1).Pairwise noTimeClash := by
  intro exams
  induction exams with
  | nil =>
    intro asg ws hin
    exact hin
  | cons e rest ih =>
    intro asg ws hin
    simp only [distributeGo]
    apply ih
    rw [List.pairwise_append]
    refine ⟨hin, ?_, ?_⟩
    · have hnd : (((sessionStep teachers asg e).1).map Assignment.teacher_name).Nodup :=
        sessionStep_names_nodup hn
      have hpw : ((sessionStep teachers asg e).1).Pairwise
          (fun x y => x.teacher_name ≠ y.teacher_name) :=
        (List.pairwise_map).1 hnd
      exact hpw.imp (fun hne heq _ => absurd heq hne)
    · intro a ha b hb hname hdate
      obtain ⟨el, hel, rfl⟩ := sessionStep_fst_mem hb
      obtain ⟨t3, ht3, hname3, havail, _⟩ := mem_sessionEligible hel
      have hna : a.teacher_name = t3.teacher_name := by
        rw [hname]
        exact hname3
      have hnd : a.exam_date = e.exam_date := hdate
      have hno := avail_no_conflict havail a ha hna hnd
      rw [check_time_conflict_symm]
      exact hno

/-! ## Infrastructure: section expansion -/

theorem expandGo_eq (secs : List (List Char)) :
    ∀ (exams acc : List SExam),
      expandGo secs exams acc =
        acc ++ exams.flatMap (fun e =>
          if (matchingSections secs e.grade).isEmpty then [e]
          else (matchingSections secs e.grade).map (fun s => { e with sect := s })) := by
  intro exams
  induction exams with
  | nil =>
    intro acc
    simp [expandGo]
  | cons e rest ih =>
    intro acc
    simp only [expandGo]
    rw [ih, List.flatMap_cons, List.append_assoc]

/-! ## Infrastructure: the specialty dictionary of the sections variant -/

theorem find?_keys_nodup {pairs : List (List Char × List Char)}
    (hn : (pairs.map Prod.fst).Nodup) {k v : List Char} (hmem : (k, v) ∈ pairs) :
    pairs.find? (fun p => p.1 == k) = some (k, v) := by
  induction pairs with
  | nil => simp at hmem
  | cons p ps ih =>
    simp only [List.map_cons, List.nodup_cons] at hn
    rcases List.mem_cons.1 hmem with rfl | hmem2
    · simp [List.find?_cons]
    · rw [List.find?_cons]
      have hne : (p.1 == k) = false := by
        rcases hq : p.1 == k
        · rfl
        · exfalso
          apply hn.1
          have hmm : k ∈ ps.map Prod.fst := List.mem_map_of_mem Prod.fst hmem2
          rw [beq_iff_eq] at hq
          rwa [hq]
      rw [hne]
      exact ih hn.2 hmem2

theorem dictGet_specPairs {teachers : List TeacherV2}
    (hn : (teachers.map TeacherV2.teacher_name).Nodup) {t : TeacherV2}
    (ht : t ∈ teachers) :
    dictGet (specPairs teachers) t.teacher_name [] =
      normalize_subject_name t.specialty := by
  have hkeys : ((specPairs teachers).map Prod.fst) = teachers.map TeacherV2.teacher_name := by
    rw [specPairs, List.map_map]
    rfl
  have hrevnodup : (((specPairs teachers).reverse).map Prod.fst).Nodup := by
    rw [List.map_reverse, hkeys]
    exact List.nodup_reverse.2 hn
  have hmem : (t.teacher_name, normalize_subject_name t.specialty) ∈
      (specPairs teachers).reverse := by
    rw [List.mem_reverse, specPairs, List.mem_map]
    exact ⟨t, ht, rfl⟩
  rw [dictGet, find?_keys_nodup hrevnodup hmem]

theorem stripChars_normalize (s : List Char) :
    stripChars (normalize_subject_name s) = normalize_subject_name s := by
  rw [normalize_subject_name, stripChars_idem]

/-! ## Infrastructure: the frame of the sections-variant assignment loop -/

theorem v2Step_clearSup (tlist : List (List Char)) (tspec : List (List Char × List Char))
    (slist : List (List Char)) (st : V2State) (e : SExam) :
    clearSupervisors (v2Step tlist tspec slist st e).1 = clearSupervisors e := by
  rw [v2Step]
  split
  · split
    · split <;> rfl
    · split <;> rfl
  · dsimp only
    split
    · split <;> rfl
    · split <;> rfl

theorem assignV2Go_clearSup (tlist : List (List Char))
    (tspec : List (List Char × List Char)) (slist : List (List Char)) :
    ∀ (exams : List SExam) (st : V2State) (acc : List SExam),
      ((assignV2Go tlist tspec slist exams st acc).1).map clearSupervisors =
        acc.map clearSupervisors ++ exams.map clearSupervisors := by
  intro exams
  induction exams with
  | nil =>
    intro st acc
    simp [assignV2Go]
  | cons e rest ih =>
    intro st acc
    simp only [assignV2Go]
    rw [ih]
    simp only [List.map_append, List.map_cons]
    rw [v2Step_clearSup]
    simp [List.append_assoc]

/-! ## Claim theorems -/

/-- Claim C1: for every run of `distribute_invigilators` on a supervisor
table with unique teacher names, and for every supervisor and every date,
the number of sessions assigned to that supervisor on that date never
exceeds that supervisor's `max_per_day` daily capacity (a supervisor at
capacity is excluded from eligibility before any further same-day
assignment). -/
theorem c1_daily_capacity (teachers : List Teacher) (exams : List Exam)
    (selected_level : Option (List Char))
    (hn : (teachers.map Teacher.teacher_name).Nodup) :
    ∀ t ∈ teachers, ∀ d : Nat,
      calculate_daily_load (distribute_invigilators teachers exams selected_level).1
        t.teacher_name d ≤ t.max_per_day := by
  intro t ht d
  rw [distribute_invigilators]
  refine distributeGo_daily teachers hn _ [] [] ?_ t ht d
  intro t2 ht2 d2
  simp [calculate_daily_load]

/-- Witness for C1 at a concrete run: one teacher of capacity 2, one
session, load on the session's date stays within capacity. -/
theorem c1_daily_capacity_witness :
    calculate_daily_load
      (distribute_invigilators [⟨"A".data, "m".data, 2, []⟩]
        [⟨1, some 8, some 10, "s".data, "L".data, "c".data, 1⟩] none).1
      "A".data 1 ≤ 2 :=
  c1_daily_capacity [⟨"A".data, "m".data, 2, []⟩]
    [⟨1, some 8, some 10, "s".data, "L".data, "c".data, 1⟩] none (by decide)
    ⟨"A".data, "m".data, 2, []⟩ (by decide) 1

/-- Claim C2: in the assignment list returned by `distribute_invigilators`
over a table with unique teacher names, no supervisor holds two assignments
on the same date whose time ranges overlap: any two distinct assignment
records with equal supervisor and equal date have non-conflicting
(start, end) windows. -/
theorem c2_no_double_booking (teachers : List Teacher) (exams : List Exam)
    (selected_level : Option (List Char))
    (hn : (teachers.map Teacher.teacher_name).Nodup) :
    ((distribute_invigilators teachers exams selected_level).1).Pairwise noTimeClash := by
  rw [distribute_invigilators]
  exact distributeGo_pairwise teachers hn _ [] [] List.Pairwise.nil

/-- Witness for C2 at a concrete run: one teacher, two overlapping sessions
on the same day (the second finds the teacher excluded). -/
theorem c2_no_double_booking_witness :
    ((distribute_invigilators [⟨"X".data, "m".data, 9, []⟩]
      [⟨1, some 8, some 10, "s1".data, "L".data, "c".data, 1⟩,
       ⟨1, some 9, some 11, "s2".data, "L".data, "c".data, 1⟩] none).1).Pairwise
      noTimeClash :=
  c2_no_double_booking [⟨"X".data, "m".data, 9, []⟩]
    [⟨1, some 8, some 10, "s1".data, "L".data, "c".data, 1⟩,
     ⟨1, some 9, some 11, "s2".data, "L".data, "c".data, 1⟩] none (by decide)

/-- Counterexample to claim C3 as stated: with one teacher and one session
requiring `K = 3` supervisors, the ranked eligible list has `M = 1 < K`
members, yet the run emits two ShortageWarnings for that session, not
exactly one — the slot loop appends one warning per unfilled slot. -/
theorem c3_counterexample :
    (sessionEligible [⟨"A".data, "m".data, 9, []⟩] []
        ⟨1, some 8, some 10, "s".data, "L".data, "c".data, 3⟩).length < 3 ∧
    ¬ ((distribute_invigilators [⟨"A".data, "m".data, 9, []⟩]
        [⟨1, some 8, some 10, "s".data, "L".data, "c".data, 3⟩] none).2.length = 1) := by
  constructor
  · decide
  · decide

/-- Claim C3 (amended): for every session whose ranked eligible list has
size `M` strictly below the required count `K`, the engine assigns exactly
the `M` eligible supervisors, emits exactly `K - M` ShortageWarnings for
that session — one per unfilled slot, each recording `required = K` and
`filled = M` — and the run continues with the next session (no exception:
the step equation below always holds). -/
theorem c3_shortage_amended (teachers : List Teacher) (asg : List Assignment)
    (ws : List ShortageWarning) (e : Exam) (rest : List Exam)
    (h : (sessionEligible teachers asg e).length < e.invigilators_needed) :
    (sessionStep teachers asg e).1 =
      (sessionEligible teachers asg e).map (mkAssignment e) ∧
    ((sessionStep teachers asg e).2).length =
      e.invigilators_needed - (sessionEligible teachers asg e).length ∧
    (∀ w ∈ (sessionStep teachers asg e).2,
      w.required = e.invigilators_needed ∧
      w.filled = (sessionEligible teachers asg e).length) ∧
    distributeGo teachers (e :: rest) asg ws =
      distributeGo teachers rest (asg ++ (sessionStep teachers asg e).1)
        (ws ++ (sessionStep teachers asg e).2) := by
  refine ⟨?_, ?_, ?_, rfl⟩
  · rw [sessionStep_eq]
    dsimp only
    rw [List.take_of_length_le (by omega)]
  · rw [sessionStep_eq]
    dsimp only
    rw [List.length_replicate]
  · intro w hw
    rw [sessionStep_eq] at hw
    dsimp only at hw
    have hwe := List.eq_of_mem_replicate hw
    subst hwe
    refine ⟨rfl, ?_⟩
    show min e.invigilators_needed (sessionEligible teachers asg e).length =
      (sessionEligible teachers asg e).length
    omega

/-- Witness for C3 (amended) at a concrete shortage: `K = 3`, `M = 1`. -/
theorem c3_shortage_amended_witness :
    (sessionStep [⟨"A".data, "m".data, 9, []⟩] []
        ⟨1, some 8, some 10, "s".data, "L".data, "c".data, 3⟩).1 =
      (sessionEligible [⟨"A".data, "m".data, 9, []⟩] []
        ⟨1, some 8, some 10, "s".data, "L".data, "c".data, 3⟩).map
        (mkAssignment ⟨1, some 8, some 10, "s".data, "L".data, "c".data, 3⟩) ∧
    ((sessionStep [⟨"A".data, "m".data, 9, []⟩] []
        ⟨1, some 8, some 10, "s".data, "L".data, "c".data, 3⟩).2).length =
      3 - (sessionEligible [⟨"A".data, "m".data, 9, []⟩] []
        ⟨1, some 8, some 10, "s".data, "L".data, "c".data, 3⟩).length :=
  ⟨(c3_shortage_amended [⟨"A".data, "m".data, 9, []⟩] [] []
      ⟨1, some 8, some 10, "s".data, "L".data, "c".data, 3⟩ [] (by decide)).1,
   (c3_shortage_amended [⟨"A".data, "m".data, 9, []⟩] [] []
      ⟨1, some 8, some 10, "s".data, "L".data, "c".data, 3⟩ [] (by decide)).2.1⟩

/-- Counterexample to claim C4 as stated: the claim asserts chronological
processing for the engine including `assign_supervisors_smart_v2`, whose
loop in fact iterates the exam table in input row order with no sort.
Concretely, with two equally idle teachers and two sessions on days 1 and 2,
whichever session comes first in the table draws the first-pick teacher "A"
and bumps the load counters before the other: the day-2 session gets "A"
when it is placed first, while the day-1 session — the earlier one — gets
"B"; swapping the rows swaps the picks. Under the claimed ordering the
earlier (day-1) session would draw first, and so draw the same supervisor,
regardless of the order of rows in the input table. -/
theorem c4_counterexample :
    (assign_supervisors_smart_v2
      [⟨2, "s2".data, "08:00".data, "10:00".data, "s".data, "s".data,
        "ثاني".data, "ثاني".data, [], [], []⟩,
       ⟨1, "s2".data, "08:00".data, "10:00".data, "s".data, "s".data,
        "ثاني".data, "ثاني".data, [], [], []⟩]
      [⟨"A".data, "x".data⟩, ⟨"B".data, "y".data⟩] none).1 =
      [⟨2, "s2".data, "08:00".data, "10:00".data, "s".data, "s".data,
        "ثاني".data, "ثاني".data, [], "A".data, []⟩,
       ⟨1, "s2".data, "08:00".data, "10:00".data, "s".data, "s".data,
        "ثاني".data, "ثاني".data, [], "B".data, []⟩] ∧
    (assign_supervisors_smart_v2
      [⟨1, "s2".data, "08:00".data, "10:00".data, "s".data, "s".data,
        "ثاني".data, "ثاني".data, [], [], []⟩,
       ⟨2, "s2".data, "08:00".data, "10:00".data, "s".data, "s".data,
        "ثاني".data, "ثاني".data, [], [], []⟩]
      [⟨"A".data, "x".data⟩, ⟨"B".data, "y".data⟩] none).1 =
      [⟨1, "s2".data, "08:00".data, "10:00".data, "s".data, "s".data,
        "ثاني".data, "ثاني".data, [], "A".data, []⟩,
       ⟨2, "s2".data, "08:00".data, "10:00".data, "s".data, "s".data,
        "ثاني".data, "ثاني".data, [], "B".data, []⟩] := by
  constructor
  · decide
  · decide

/-- Claim C4 (amended): the chronological scheduling policy belongs to
`distribute_invigilators`: it runs its main loop over `sortedSessions`,
whose order is pairwise non-decreasing in the (date, start time) key for
every input — so a session with a strictly earlier key is processed
(supervisors drawn, load counters updated) before a later one regardless of
input row order — and which is a permutation of the (level-filtered) input
table. `assign_supervisors_smart_v2`, by contrast, iterates exam rows in
input table order with no sorting: its loop always processes the head row
of the remaining table (drawing supervisors and updating the counters)
before the rest. -/
theorem c4_processing_order (teachers : List Teacher) (exams : List Exam)
    (selected_level : Option (List Char)) :
    distribute_invigilators teachers exams selected_level =
      distributeGo teachers (sortedSessions exams selected_level) [] [] ∧
    (sortedSessions exams selected_level).Pairwise (fun a b => examLE a b = true) ∧
    (sortedSessions exams selected_level).Perm (levelFilter exams selected_level) ∧
    (∀ (tlist : List (List Char)) (tspec : List (List Char × List Char))
       (slist : List (List Char)) (st : V2State) (acc : List SExam)
       (e : SExam) (rest : List SExam),
      assignV2Go tlist tspec slist (e :: rest) st acc =
        assignV2Go tlist tspec slist rest (v2Step tlist tspec slist st e).2
          (acc ++ [(v2Step tlist tspec slist st e).1])) := by
  refine ⟨rfl, ?_, ?_, fun tlist tspec slist st acc e rest => rfl⟩
  · rw [sortedSessions]
    exact sortByLE_pairwise examLE_trans examLE_total _
  · rw [sortedSessions]
    exact sortByLE_perm _ _

/-- Claim C5: over supervisors with pairwise-distinct names, the list
returned by `get_eligible_teachers` is strictly sorted by the composite
ascending key — different-specialty supervisors strictly before
same-specialty ones, then current total load ascending, then name
lexicographically — so the ordering leaves no ties unresolved. -/
theorem c5_eligible_sorted (teachers : List Teacher) (exam_subject : List Char)
    (exam_date : Nat) (start_time end_time : Option Nat)
    (assignments : List Assignment) (max_daily_limit : Bool)
    (hn : (teachers.map Teacher.teacher_name).Nodup) :
    List.Sorted eligKeyLT
      (get_eligible_teachers teachers exam_subject exam_date start_time end_time
        assignments max_daily_limit) := by
  have h1 : (get_eligible_teachers teachers exam_subject exam_date start_time end_time
      assignments max_daily_limit).Pairwise (fun a b => eligLE a b = true) := by
    rw [get_eligible_teachers]
    exact sortByLE_pairwise eligLE_trans eligLE_total _
  have h2 : ((get_eligible_teachers teachers exam_subject exam_date start_time end_time
      assignments max_daily_limit).map Eligible.teacher_name).Nodup :=
    get_eligible_names_nodup hn
  have h3 : (get_eligible_teachers teachers exam_subject exam_date start_time end_time
      assignments max_daily_limit).Pairwise
      (fun a b => a.teacher_name ≠ b.teacher_name) := (List.pairwise_map).1 h2
  exact (h1.and h3).imp (fun h => eligLE_strict h.1 h.2)

/-- Witness for C5 at a concrete pool: two teachers, one sharing the exam
subject, one session; the returned ranking is strictly sorted. -/
theorem c5_eligible_sorted_witness :
    List.Sorted eligKeyLT
      (get_eligible_teachers
        [⟨"A".data, "Math".data, 2, []⟩, ⟨"B".data, "Arabic".data, 2, []⟩]
        "Math".data 1 (some 8) (some 10) [] true) :=
  c5_eligible_sorted
    [⟨"A".data, "Math".data, 2, []⟩, ⟨"B".data, "Arabic".data, 2, []⟩]
    "Math".data 1 (some 8) (some 10) [] true (by decide)

/-- Claim C6: `check_time_conflict` returns true iff
`start_a < end_b AND start_b < end_a` when all four endpoints are present,
and returns false (rather than raising) whenever any endpoint is missing. -/
theorem c6_check_time_conflict :
    (∀ s1 e1 s2 e2 : Option Nat, (s1 = none ∨ e1 = none ∨ s2 = none ∨ e2 = none) →
      check_time_conflict s1 e1 s2 e2 = false) ∧
    (∀ a b c d : Nat,
      check_time_conflict (some a) (some b) (some c) (some d) = true ↔
        (a < d ∧ c < b)) := by
  constructor
  · intro s1 e1 s2 e2 h
    cases s1 <;> cases e1 <;> cases s2 <;> cases e2 <;> try rfl
    rcases h with h | h | h | h <;> simp at h
  · intro a b c d
    simp only [check_time_conflict, Bool.not_eq_true', Bool.or_eq_false_iff,
      decide_eq_false_iff_not, Nat.not_le]
    constructor
    · intro h
      exact ⟨h.2, h.1⟩
    · intro h
      exact ⟨h.2, h.1⟩

/-- Witness for C6: a missing start time reports no conflict. -/
theorem c6_check_time_conflict_witness :
    check_time_conflict none (some 2) (some 1) (some 3) = false :=
  c6_check_time_conflict.1 none (some 2) (some 1) (some 3) (Or.inl rfl)

/-- Counterexample to claim C7 as stated: the claim's normalization is
case-insensitive, so a teacher of specialty "MATH" should be excluded from
a session on subject "math" (the two normalize identically under
`normalizeCI`); but `assign_supervisors_smart_v2` compares
`normalize_subject_name` outputs, which keep case, so it assigns that
teacher as supervisor 1. -/
theorem c7_counterexample :
    normalizeCI "MATH".data = normalizeCI "math".data ∧
    (assign_supervisors_smart_v2
      [⟨1, "s2".data, "08:00".data, "10:00".data, "math".data, "math".data,
        "أول".data, "أول".data, [], [], []⟩]
      [⟨"A".data, "MATH".data⟩] none).1 =
      [⟨1, "s2".data, "08:00".data, "10:00".data, "math".data, "math".data,
        "أول".data, "أول".data, [], "A".data, []⟩] := by
  constructor
  · decide
  · decide

/-- Claim C7 (amended): under the exclude-same-specialty policy of
`assign_supervisors_smart_v2`, a teacher under the daily cap is in the
supervisor-1 candidate pool iff their specialty differs from the session's
subject after a normalization that strips whitespace and parenthetical
annotations but is case-sensitive; equivalently, a teacher is excluded on
specialty grounds iff `normalize_subject_name` maps their specialty and the
session's subject to the same string. -/
theorem c7_specialty_exclusion_amended (teachers : List TeacherV2)
    (hn : (teachers.map TeacherV2.teacher_name).Nodup)
    (tv : TeacherV2) (ht : tv ∈ teachers) (st : V2State) (date : Nat)
    (subj subjN : List Char) (hs : subjN = normalize_subject_name subj) :
    tv.teacher_name ∈
        availTeachers1 (teachers.map TeacherV2.teacher_name) (specPairs teachers)
          st date subjN ↔
      (st.teacher_daily tv.teacher_name date < 3 ∧
        normalize_subject_name tv.specialty ≠ normalize_subject_name subj) := by
  rw [availTeachers1, List.mem_filter, dictGet_specPairs hn ht]
  constructor
  · rintro ⟨-, hp⟩
    simp only [Bool.and_eq_true, decide_eq_true_eq, Bool.not_eq_true',
      beq_eq_false_iff_ne] at hp
    refine ⟨hp.1, ?_⟩
    intro heq
    apply hp.2
    rw [stripChars_normalize, hs, stripChars_normalize, heq]
  · rintro ⟨h1, h2⟩
    refine ⟨List.mem_map_of_mem _ ht, ?_⟩
    simp only [Bool.and_eq_true, decide_eq_true_eq, Bool.not_eq_true',
      beq_eq_false_iff_ne]
    refine ⟨h1, ?_⟩
    rw [stripChars_normalize, hs, stripChars_normalize]
    exact h2

/-- Witness for C7 (amended) at a concrete pool: one teacher of specialty
"MATH", subject "math"; the pool-membership equivalence holds. -/
theorem c7_specialty_exclusion_amended_witness :
    "A".data ∈
        availTeachers1 (([⟨"A".data, "MATH".data⟩] : List TeacherV2).map
            TeacherV2.teacher_name) (specPairs [⟨"A".data, "MATH".data⟩])
          emptyV2State 0 (normalize_subject_name "math".data) ↔
      (emptyV2State.teacher_daily "A".data 0 < 3 ∧
        normalize_subject_name "MATH".data ≠ normalize_subject_name "math".data) :=
  c7_specialty_exclusion_amended [⟨"A".data, "MATH".data⟩] (by decide)
    ⟨"A".data, "MATH".data⟩ (by decide) emptyV2State 0 "math".data
    (normalize_subject_name "math".data) rfl

/-- The unavailability exclusion of `is_teacher_available`: a raw
unavailability field containing the printed session date makes the teacher
unavailable — the stripped field then still contains the date string (its
characters are digits, so no whitespace is stripped out of it), is nonempty
and differs from "nan", which fires the exclusion branch. -/
theorem unavail_not_available {t : Teacher} {d : Nat} {start_time end_time : Option Nat}
    {assignments : List Assignment}
    (hc : hasSub (dateStr d) t.unavailable = true) :
    is_teacher_available t d start_time end_time assignments = false := by
  have hinf : dateStr d <:+: t.unavailable := (hasSub_iff _ _).1 hc
  have hinf2 : dateStr d <:+: stripChars t.unavailable :=
    infix_stripChars (dateStr_ne_nil d) (dateStr_not_ws d) hinf
  have hsub : hasSub (dateStr d) (stripChars t.unavailable) = true :=
    (hasSub_iff _ _).2 hinf2
  have hne : (stripChars t.unavailable).isEmpty = false := by
    rcases hq : stripChars t.unavailable with _ | ⟨c, k⟩
    · exfalso
      rw [hq] at hinf2
      exact dateStr_ne_nil d (( List.infix_nil).1 hinf2)
    · rfl
  have hnan : (stripChars t.unavailable == "nan".data) = false := by
    rcases hq : stripChars t.unavailable == "nan".data
    · rfl
    · exfalso
      rw [beq_iff_eq] at hq
      rw [hq] at hinf2
      exact not_dateStr_infix_nan d hinf2
  have hcond : ((!(stripChars t.unavailable).isEmpty
      && !(stripChars t.unavailable == "nan".data))
      && hasSub (dateStr d) (stripChars t.unavailable)) = true := by
    rw [hne, hnan, hsub]
    rfl
  simp only [is_teacher_available]
  rw [if_pos hcond]

/-- Claim C8: in `get_eligible_teachers` over supervisors with
pairwise-distinct names, a supervisor whose raw unavailability field
contains the printed session date (string containment on the raw field) is
excluded from eligibility for every session on that date: no entry of the
eligible list carries that supervisor's name. -/
theorem c8_unavailable_excluded (teachers : List Teacher) (exam_subject : List Char)
    (d : Nat) (start_time end_time : Option Nat) (assignments : List Assignment)
    (max_daily_limit : Bool)
    (hn : (teachers.map Teacher.teacher_name).Nodup)
    (t : Teacher) (ht : t ∈ teachers)
    (hc : hasSub (dateStr d) t.unavailable = true) :
    (get_eligible_teachers teachers exam_subject d start_time end_time assignments
      max_daily_limit).all (fun el => !(el.teacher_name == t.teacher_name)) = true := by
  rw [List.all_eq_true]
  intro el hel
  obtain ⟨t2, ht2, hname, havail, -⟩ := mem_get_eligible hel
  rcases hq : el.teacher_name == t.teacher_name
  · rfl
  · exfalso
    rw [beq_iff_eq] at hq
    have ht2t : t2 = t := List.inj_on_of_nodup_map hn ht2 ht (by rw [← hname, hq])
    rw [ht2t] at havail
    rw [unavail_not_available hc] at havail
    exact Bool.false_ne_true havail

/-- Witness for C8 at a concrete pool: the teacher whose unavailability
text "5" contains the printed date of day 5 never appears among the
eligible entries of a session on that day. -/
theorem c8_unavailable_excluded_witness :
    (get_eligible_teachers
      [⟨"A".data, "m".data, 9, "5".data⟩, ⟨"B".data, "b".data, 9, []⟩]
      "s".data 5 (some 8) (some 10) [] true).all
      (fun el => !(el.teacher_name == "A".data)) = true :=
  c8_unavailable_excluded
    [⟨"A".data, "m".data, 9, "5".data⟩, ⟨"B".data, "b".data, 9, []⟩]
    "s".data 5 (some 8) (some 10) [] true (by decide)
    ⟨"A".data, "m".data, 9, "5".data⟩ (by decide) (by decide)

/-- Claim C9: `expand_exams_by_sections` leaves the exam table unchanged
when the sections table is absent or empty, and otherwise replaces each
session by one copy per section whose extracted grade matches the session's
grade, each copy carrying that section's identifier — a session matching
zero sections contributing exactly its one unchanged copy (pass-through,
not an error; the flatMap shape also covers the empty-sections case). -/
theorem c9_section_expansion :
    (∀ exams : List SExam, expand_exams_by_sections exams none = exams) ∧
    (∀ exams : List SExam, expand_exams_by_sections exams (some []) = exams) ∧
    (∀ (exams : List SExam) (secs : List (List Char)),
      expand_exams_by_sections exams (some secs) =
        exams.flatMap (fun e =>
          if (matchingSections secs e.grade).isEmpty then [e]
          else (matchingSections secs e.grade).map (fun s => { e with sect := s }))) := by
  refine ⟨fun exams => rfl, fun exams => rfl, ?_⟩
  intro exams secs
  rw [expand_exams_by_sections]
  by_cases hs : secs.length = 0
  · rw [if_pos hs]
    have hsecs : secs = [] := List.length_eq_zero.1 hs
    subst hsecs
    simp [matchingSections]
  · rw [if_neg hs, expandGo_eq]
    simp

/-- Counterexample to claim C10 as stated: `assign_supervisors_smart_v2`
writes the chosen supervisor into the caller's exam table in place
(`exams_df.at[idx, 'supervisor1'] = ...`) and returns that same table, so
after the run the exam row no longer holds its original (empty)
supervisor1 value. -/
theorem c10_counterexample :
    (assign_supervisors_smart_v2
      [⟨2, "s3".data, "10:30".data, "12:30".data, "ph".data, "ph".data,
        "ثاني".data, "ثاني".data, [], [], []⟩]
      [⟨"B".data, "ch".data⟩] none).1 ≠
      [⟨2, "s3".data, "10:30".data, "12:30".data, "ph".data, "ph".data,
        "ثاني".data, "ثاني".data, [], [], []⟩] := by
  decide

/-- Claim C10 (amended): `distribute_invigilators` leaves its input tables
unchanged (it reads the supervisor table and works on a copy of the exam
table), and `assign_supervisors_smart_v2` leaves the supervisor and
sections tables unchanged and preserves every field of every exam row
except `supervisor1` and `supervisor2`, which it fills in place in the
caller's exam table: erasing the two supervisor fields recovers exactly the
input table. -/
theorem c10_frame_amended (exams : List SExam) (teachers : List TeacherV2)
    (sections : Option (List (List Char))) :
    ((assign_supervisors_smart_v2 exams teachers sections).1).map clearSupervisors =
      exams.map clearSupervisors := by
  simp only [assign_supervisors_smart_v2]
  rw [assignV2Go_clearSup]
  simp
